import Mathlib

/-!
Verification of `stockAssessmentFuns.hpp`, a library of stock-assessment
numerical utilities: a soft-floor penalty function (`posfun`), a squaring
helper (`square`), a compositional-noise generator (`addCompNoise`), a
Chapman-Robson total-mortality estimator (`CRmort`), a fixed-iteration
Newton-Raphson solver for the Baranov catch equation (`solveBaranovDD`),
and a logistic-normal negative log-density (`negLogLogisticNormal`).

The C++ template type `Type` is an automatic-differentiation real scalar;
we embed it as `ℝ` with exact real arithmetic (Lean's total division, where
`a / 0 = 0`, stands in for the unguarded floating-point division of the
source).  `vector<Type>` of a statically known length `n` is embedded as
`Fin n → ℝ`; the age-composition vector of `CRmort`, whose accesses are
index computations, is embedded as a total function `ℕ → ℝ`.
-/

namespace StockAssessment

noncomputable section

/-- Embedding of `posfun(x, eps, &pen)` (stockAssessmentFuns.hpp lines
30-33).  The C++ mutates `pen` by reference and returns the floored value;
we return the pair (returned value, updated penalty).
`CppAD::CondExpLt(x, eps, A, B)` is the branchless select `x < eps ? A : B`
and `CppAD::CondExpGe(x, eps, A, B)` is `x >= eps ? A : B`; both are
value-level selects, embedded as if-then-else on the same predicates. -/
def posfun (x eps pen : ℝ) : ℝ × ℝ :=
  (if eps ≤ x then x else eps / (2 - eps / x),
   pen + (if x < eps then 0.01 * (x - eps) ^ 2 else 0))

/-- C1 counterexample: at `eps = 1`, `x = 3/4` (so `x < eps`, `x ≠ 0`,
`eps > 0`) the value returned by `posfun` is `1 / (2 - 4/3) = 3/2`, which is
not strictly less than `eps`: the claim that every `x < eps`, `x ≠ 0` yields
a return value strictly below `eps` is false on the code. -/
theorem posfun_below_eps_cex :
    ((3 / 4 : ℝ) < 1 ∧ (3 / 4 : ℝ) ≠ 0 ∧ (0 : ℝ) < 1) ∧
      ¬ (posfun (3 / 4) 1 0).1 < 1 := by
  constructor
  · norm_num
  · have h : ¬ (1 : ℝ) ≤ 3 / 4 := by norm_num
    simp only [posfun, if_neg h]
    norm_num

/-- C1, amended: for every `eps > 0` and every `x` with `x < eps / 2` and
`x ≠ 0`, the value returned by `posfun(x, eps, pen)` is strictly less than
`eps`.  (On `eps/2 < x < eps` the return value `eps / (2 - eps/x)` exceeds
`eps`, as the counterexample shows, and at `x = eps/2` the denominator
vanishes; below `eps/2` the claim holds: for `x < 0` the denominator
exceeds `2`, and for `0 < x < eps/2` the return value is negative.) -/
theorem posfun_below_half_eps_lt_eps (x eps pen : ℝ)
    (heps : 0 < eps) (hx : x < eps / 2) (hx0 : x ≠ 0) :
    (posfun x eps pen).1 < eps := by
  have hxe : ¬ eps ≤ x := by
    intro hc
    nlinarith
  simp only [posfun, if_neg hxe]
  rcases lt_or_gt_of_ne hx0 with hneg | hpos
  · have hdx : eps / x < 0 := div_neg_of_pos_of_neg heps hneg
    have hd : (1 : ℝ) < 2 - eps / x := by linarith
    rw [div_lt_iff₀ (by linarith)]
    nlinarith
  · have h2 : (2 : ℝ) < eps / x := by
      rw [lt_div_iff₀ hpos]
      nlinarith
    have hd : 2 - eps / x < 0 := by linarith
    exact (div_neg_of_pos_of_neg heps hd).trans heps

/-- Witness for the amended C1 at `x = -1`, `eps = 1`, `pen = 0`. -/
theorem posfun_below_half_eps_lt_eps_wit :
    ((0 : ℝ) < 1 ∧ (-1 : ℝ) < 1 / 2 ∧ (-1 : ℝ) ≠ 0) ∧
      (posfun (-1) 1 0).1 < 1 :=
  ⟨⟨by norm_num, by norm_num, by norm_num⟩,
    posfun_below_half_eps_lt_eps (-1) 1 0 (by norm_num) (by norm_num)
      (by norm_num)⟩

/-- C6: `posfun` returns `x` exactly when `x >= eps`, and the only change
ever made to the penalty accumulator is the addition of
`0.01 * (x - eps)^2` when `x < eps` (in particular `pen` is unchanged when
`x >= eps`). -/
theorem posfun_frame (x eps pen : ℝ) :
    (eps ≤ x → (posfun x eps pen).1 = x) ∧
      (posfun x eps pen).2 - pen =
        (if x < eps then 0.01 * (x - eps) ^ 2 else 0) := by
  constructor
  · intro h
    simp [posfun, if_pos h]
  · simp [posfun]

/-- C10: for `0 < x < eps/2` the soft floor returns a strictly negative
value, because the denominator `2 - eps/x` is negative there. -/
theorem posfun_small_pos_neg (x eps pen : ℝ)
    (heps : 0 < eps) (hx0 : 0 < x) (hx : x < eps / 2) :
    (posfun x eps pen).1 < 0 := by
  have hxe : ¬ eps ≤ x := by
    intro hc
    nlinarith
  simp only [posfun, if_neg hxe]
  have h2 : (2 : ℝ) < eps / x := by
    rw [lt_div_iff₀ hx0]
    nlinarith
  have hd : 2 - eps / x < 0 := by linarith
  exact div_neg_of_pos_of_neg heps hd

/-- Witness for C10 at `x = 1/4`, `eps = 1`, `pen = 0`
(the return value there is `1 / (2 - 4) = -1/2`). -/
theorem posfun_small_pos_neg_wit :
    ((0 : ℝ) < 1 ∧ (0 : ℝ) < 1 / 4 ∧ (1 / 4 : ℝ) < 1 / 2) ∧
      (posfun (1 / 4) 1 0).1 < 0 :=
  ⟨⟨by norm_num, by norm_num, by norm_num⟩,
    posfun_small_pos_neg (1 / 4) 1 0 (by norm_num) (by norm_num)
      (by norm_num)⟩

/-- Embedding of `addCompNoise(inputComp, noise)` (lines 57-74): take logs
of the input composition, add the noise vector, exponentiate, and divide by
the total.  The length `nComps` is the type index `n`. -/
def addCompNoise {n : ℕ} (inputComp noise : Fin n → ℝ) : Fin n → ℝ :=
  let logInputComp : Fin n → ℝ := fun c => Real.log (inputComp c)
  let outputComp : Fin n → ℝ := fun c => Real.exp (logInputComp c + noise c)
  let tmpTotal : ℝ := ∑ c, outputComp c
  fun c => outputComp c / tmpTotal

/-- C7: for a nonempty, strictly positive input composition and any noise
vector of the same length (the output length is the type index `n`, the
same as the input's), every entry of `addCompNoise inputComp noise` is
strictly positive and the entries sum to exactly 1 in exact real
arithmetic. -/
theorem addCompNoise_pos_sum_one {n : ℕ} (inputComp noise : Fin n → ℝ)
    (hn : 0 < n) (_hpos : ∀ c, 0 < inputComp c) :
    (∀ c, 0 < addCompNoise inputComp noise c) ∧
      ∑ c, addCompNoise inputComp noise c = 1 := by
  have htot : 0 < ∑ c, Real.exp (Real.log (inputComp c) + noise c) :=
    Finset.sum_pos (fun c _ => Real.exp_pos _) ⟨⟨0, hn⟩, Finset.mem_univ _⟩
  constructor
  · intro c
    exact div_pos (Real.exp_pos _) htot
  · simp only [addCompNoise]
    rw [← Finset.sum_div]
    exact div_self (ne_of_gt htot)

/-- Witness for C7 at `inputComp = (1, 1)`, `noise = (0, 0)`. -/
theorem addCompNoise_pos_sum_one_wit :
    (0 < 2 ∧ ∀ c : Fin 2, 0 < (![1, 1] : Fin 2 → ℝ) c) ∧
      ((∀ c, 0 < addCompNoise (![1, 1] : Fin 2 → ℝ) ![0, 0] c) ∧
        ∑ c, addCompNoise (![1, 1] : Fin 2 → ℝ) ![0, 0] c = 1) :=
  ⟨⟨by norm_num, fun c => by fin_cases c <;> norm_num⟩,
    addCompNoise_pos_sum_one (![1, 1] : Fin 2 → ℝ) ![0, 0] (by norm_num)
      (fun c => by fin_cases c <;> norm_num)⟩

/-- Embedding of `square(x)` (line 43): `pow(x, 2)`. -/
def square (x : ℝ) : ℝ := x ^ 2

/-- The geometric mean exactly as `negLogLogisticNormal` computes it
(lines 210-211): `pow(v.prod(), 1/N)` where `N = v.size()` is a C++ `int`,
so the exponent `1/N` is integer division — embedded as the natural-number
quotient `1 / N` (which is `0` for `N ≥ 2` and `1` for `N = 1`). -/
def geoMeanCode {N : ℕ} (v : Fin N → ℝ) : ℝ := (∏ i, v i) ^ (1 / N)

/-- The geometric mean as the spec requires it: real-valued division in the
exponent, `(prod v) ^ (1/N : ℝ)` (real power). -/
def geoMeanSpecReal {N : ℕ} (v : Fin N → ℝ) : ℝ :=
  (∏ i, v i) ^ ((1 : ℝ) / N)

/-- Embedding of `negLogLogisticNormal(y, p, var)` (lines 194-221):
`lnvar = log var`; geometric means by `geoMeanCode`; variance term
`(N - 1) * lnvar / 2`; then each dimension adds
`square(log(y_i/ytilde) - log(p_i/ptilde)) / 2 / var`. -/
def negLogLogisticNormal {N : ℕ} (y p : Fin N → ℝ) (var : ℝ) : ℝ :=
  let lnvar := Real.log var
  let ytilde := geoMeanCode y
  let ptilde := geoMeanCode p
  ((N : ℝ) - 1) * lnvar / 2 +
    ∑ i, square (Real.log (y i / ytilde) - Real.log (p i / ptilde)) / 2 / var

/-- C3 (code bug): the code's geometric-mean exponent `1/N` truncates to
`0` under integer division for `N ≥ 2`, so at `y = (2, 2)` the code
computes `ytilde = (2*2)^0 = 1`, while the real-valued division the claim
(and spec) require gives `(2*2)^(1/2) = 2`. -/
theorem geoMean_intdiv_bug :
    geoMeanCode (![2, 2] : Fin 2 → ℝ) = 1 ∧
      geoMeanSpecReal (![2, 2] : Fin 2 → ℝ) = 2 := by
  constructor
  · simp [geoMeanCode]
  · have hprod : (∏ i, (![2, 2] : Fin 2 → ℝ) i) = 4 := by
      simp [Fin.prod_univ_two]
      norm_num
    rw [geoMeanSpecReal, hprod]
    rw [show ((1 : ℝ) / (2 : ℕ)) = ((1 : ℝ) / 2) by norm_num]
    rw [← Real.sqrt_eq_rpow]
    rw [show (4 : ℝ) = 2 ^ 2 by norm_num,
      Real.sqrt_sq (by norm_num : (0 : ℝ) ≤ 2)]

/-- C8: with the two argument vectors identical, every residual term of
`negLogLogisticNormal` vanishes and the returned value is exactly
`(N - 1) * log(var) / 2`. -/
theorem negLogLogisticNormal_diag {N : ℕ} (y : Fin N → ℝ) (var : ℝ)
    (_hN : 1 ≤ N) (_hy : ∀ i, 0 < y i) (_hvar : 0 < var) :
    negLogLogisticNormal y y var = ((N : ℝ) - 1) * Real.log var / 2 := by
  simp [negLogLogisticNormal, square]

/-- Witness for C8 at `y = (2, 3)`, `var = 5`. -/
theorem negLogLogisticNormal_diag_wit :
    (1 ≤ 2 ∧ (∀ i : Fin 2, 0 < (![2, 3] : Fin 2 → ℝ) i) ∧ (0 : ℝ) < 5) ∧
      negLogLogisticNormal (![2, 3] : Fin 2 → ℝ) ![2, 3] 5 =
        (((2 : ℕ) : ℝ) - 1) * Real.log 5 / 2 :=
  ⟨⟨by norm_num, fun i => by fin_cases i <;> norm_num, by norm_num⟩,
    negLogLogisticNormal_diag (![2, 3] : Fin 2 → ℝ) 5 (by norm_num)
      (fun i => by fin_cases i <;> norm_num) (by norm_num)⟩

/-- The three scalars `solveBaranovDD` keeps across loop iterations
(lines 140-182): the output references `Z` and `F`, and the local
temporary `newZ`.  (`f`, `J`, `tmp` are recomputed from scratch each
iteration, so they are locals of the step.) -/
structure BaranovState where
  Z : ℝ
  F : ℝ
  newZ : ℝ

/-- One body of the `for` loop of `solveBaranovDD` (lines 160-180):
`Z = newZ; newZ = M; tmp = B*(1-exp(-Z))*F/Z; f = C - tmp;
J = -B*((1-exp(-Z))*M/Z^2 + exp(-Z)*F/Z); F -= Bstep*f/J; newZ += F`.
The two writes to `newZ` (first `M`, then `+= F` after `F` is updated)
appear here as the single binding `newZ := M + F` with the updated `F`. -/
def solveBaranovStep (Bstep C M B : ℝ) (s : BaranovState) : BaranovState :=
  let Z := s.newZ
  let tmp := B * (1 - Real.exp (-Z)) * s.F / Z
  let f := C - tmp
  let J := -B * ((1 - Real.exp (-Z)) * M / Z ^ 2 + Real.exp (-Z) * s.F / Z)
  let F := s.F - Bstep * f / J
  let newZ := M + F
  { Z := Z, F := F, newZ := newZ }

/-- Embedding of `solveBaranovDD(nIter, Bstep, C, M, B, &Z, &F)`:
initialisation `F = C/(C+B); newZ = M + F; Z = M + F` followed by `nIter`
iterations of `solveBaranovStep`.  Returns the final state, whose `Z` and
`F` fields are the values left in the reference parameters. -/
def solveBaranovDD (Bstep C M B : ℝ) : ℕ → BaranovState
  | 0 => { Z := M + C / (C + B), F := C / (C + B), newZ := M + C / (C + B) }
  | nIter + 1 => solveBaranovStep Bstep C M B (solveBaranovDD Bstep C M B nIter)

/-- The clean Newton recurrence of claim C2: `F_0 = C/(C+B)` and
`F_{i+1} = F_i - Bstep * (C - B*(1-exp(-Z_i))*F_i/Z_i) / J_i` with
`Z_i = M + F_i` and `J_i = -B*((1-exp(-Z_i))*M/Z_i^2 + exp(-Z_i)*F_i/Z_i)`. -/
def baranovF (Bstep C M B : ℝ) : ℕ → ℝ
  | 0 => C / (C + B)
  | i + 1 =>
    let F := baranovF Bstep C M B i
    let Z := M + F
    let tmp := B * (1 - Real.exp (-Z)) * F / Z
    let f := C - tmp
    let J := -B * ((1 - Real.exp (-Z)) * M / Z ^ 2 + Real.exp (-Z) * F / Z)
    F - Bstep * f / J

/-- Loop invariant of the implementation: after `n` iterations the stored
`F` is the `n`-th clean iterate and the temporary `newZ` is `M` plus that
iterate. -/
theorem solveBaranovDD_invariant (Bstep C M B : ℝ) (n : ℕ) :
    (solveBaranovDD Bstep C M B n).F = baranovF Bstep C M B n ∧
      (solveBaranovDD Bstep C M B n).newZ = M + baranovF Bstep C M B n := by
  induction n with
  | zero => exact ⟨rfl, rfl⟩
  | succ n ih =>
    obtain ⟨hF, hZ⟩ := ih
    constructor
    · show (solveBaranovStep Bstep C M B (solveBaranovDD Bstep C M B n)).F = _
      simp only [solveBaranovStep, baranovF, hF, hZ]
    · show (solveBaranovStep Bstep C M B (solveBaranovDD Bstep C M B n)).newZ = _
      simp only [solveBaranovStep, baranovF, hF, hZ]

/-- C2: for every iteration count and all real parameters, the fishing
mortality produced by the implementation (with its `newZ` temporary)
equals the corresponding iterate of the clean recurrence `baranovF`; since
this holds for every `nIter`, the two produce the same sequence of `F`
iterates.  (No nonzeroness side conditions are needed: both sides use the
same total real division, so the equality holds for all parameters; a
fortiori it holds when `C + B`, the intermediate `Z` and the Jacobian `J`
are all nonzero as the claim assumes.) -/
theorem solveBaranovDD_eq_clean_recurrence (Bstep C M B : ℝ) (nIter : ℕ) :
    (solveBaranovDD Bstep C M B nIter).F = baranovF Bstep C M B nIter :=
  (solveBaranovDD_invariant Bstep C M B nIter).1

/-- C9: after `nIter ≥ 1` iterations the output `Z` is `M` plus the
second-to-last `F` iterate (the value `F` had before the final Newton
update), and the returned pair satisfies `Z = M + F` exactly when the
final update left `F` unchanged — so whenever the last update moves `F`,
the outputs satisfy `Z ≠ M + F`. -/
theorem solveBaranovDD_Z_lags_F (Bstep C M B : ℝ) (n : ℕ) (h : 1 ≤ n) :
    (solveBaranovDD Bstep C M B n).Z = M + baranovF Bstep C M B (n - 1) ∧
      ((solveBaranovDD Bstep C M B n).Z =
          M + (solveBaranovDD Bstep C M B n).F ↔
        baranovF Bstep C M B (n - 1) = baranovF Bstep C M B n) := by
  match n, h with
  | m + 1, _ =>
    have hZ : (solveBaranovDD Bstep C M B (m + 1)).Z =
        M + baranovF Bstep C M B m := by
      show (solveBaranovStep Bstep C M B (solveBaranovDD Bstep C M B m)).Z = _
      simp only [solveBaranovStep]
      exact (solveBaranovDD_invariant Bstep C M B m).2
    have hF : (solveBaranovDD Bstep C M B (m + 1)).F =
        baranovF Bstep C M B (m + 1) :=
      (solveBaranovDD_invariant Bstep C M B (m + 1)).1
    refine ⟨hZ, ?_⟩
    rw [hZ, hF, Nat.add_sub_cancel]
    exact add_right_inj M

/-- Witness for C9 at `nIter = 1`, `Bstep = C = M = B = 1`. -/
theorem solveBaranovDD_Z_lags_F_wit :
    1 ≤ 1 ∧
      ((solveBaranovDD 1 1 1 1 1).Z = 1 + baranovF 1 1 1 1 (1 - 1) ∧
        ((solveBaranovDD 1 1 1 1 1).Z = 1 + (solveBaranovDD 1 1 1 1 1).F ↔
          baranovF 1 1 1 1 (1 - 1) = baranovF 1 1 1 1 1)) :=
  ⟨by decide, solveBaranovDD_Z_lags_F 1 1 1 1 1 (by decide)⟩

/-- The `for` loop of `CRmort` (lines 106-113), with state
`(ageObs, abar)`: starting at age index `a` with `fuel` iterations left
(the C++ loop runs `a` from `kage - 1` while `a < Aplus`, i.e.
`Aplus - kage + 1` times), if `ageComp(a) >= minObs` it stores
`ageComp(a)` at relative index `a - kage + 1`, adds
`(a - kage + 1) * ageComp(a)` to `abar` and continues, else it breaks.
The C++ `int` expression `a - kage + 1` is written `a + 1 - kage`, equal
to it whenever `kage ≤ a + 1`, which holds along the whole loop once
`1 ≤ kage` (the theorems below assume it). -/
def CRmortLoop (ageComp : ℕ → ℝ) (minObs : ℤ) (kage : ℕ) :
    ℕ → ℕ → (ℕ → ℝ) × ℝ → (ℕ → ℝ) × ℝ
  | 0, _, st => st
  | fuel + 1, a, st =>
    if (minObs : ℝ) ≤ ageComp a then
      CRmortLoop ageComp minObs kage fuel (a + 1)
        (Function.update st.1 (a + 1 - kage) (ageComp a),
          st.2 + ((a + 1 - kage : ℕ) : ℝ) * ageComp a)
    else st

/-- Embedding of `CRmort(ageComp, kage, Aplus, minObs, &Ztmp)`
(lines 91-123): run the loop from `a = kage - 1` with a zero-filled
`ageObs` of length `maxAges = Aplus - kage + 1` (written `Aplus + 1 - kage`,
equal to it for `1 ≤ kage`), set `N` to the sum of `ageObs`, divide `abar`
by `N`, and return the value stored into `Ztmp`: `-1` if `abar == 0`, else
`log((1 + abar - 1/N) / abar)`. -/
def CRmort (ageComp : ℕ → ℝ) (kage Aplus : ℕ) (minObs : ℤ) : ℝ :=
  let maxAges := Aplus + 1 - kage
  let st := CRmortLoop ageComp minObs kage maxAges (kage - 1) (fun _ => 0, 0)
  let N := ∑ j ∈ Finset.range maxAges, st.1 j
  let abar := st.2 / N
  if abar = 0 then -1 else Real.log ((1 + abar - 1 / N) / abar)

/-- Length of the maximal prefix of `ageComp a, ageComp (a + 1), ...`
(capped at `fuel`) whose entries are all `≥ minObs`: the number of ages
the loop of `CRmort` records before its early exit. -/
def CRrecLen (ageComp : ℕ → ℝ) (minObs : ℤ) : ℕ → ℕ → ℕ
  | 0, _ => 0
  | fuel + 1, a =>
    if (minObs : ℝ) ≤ ageComp a then CRrecLen ageComp minObs fuel (a + 1) + 1
    else 0

/-- The number of recorded ages for the full `CRmort` loop. -/
def CRlen (ageComp : ℕ → ℝ) (kage Aplus : ℕ) (minObs : ℤ) : ℕ :=
  CRrecLen ageComp minObs (Aplus + 1 - kage) (kage - 1)

/-- The final contents of the `ageObs` vector of `CRmort`. -/
def CRageObs (ageComp : ℕ → ℝ) (kage Aplus : ℕ) (minObs : ℤ) : ℕ → ℝ :=
  (CRmortLoop ageComp minObs kage (Aplus + 1 - kage) (kage - 1)
    (fun _ => 0, 0)).1

/-- The value of `abar` accumulated by the `CRmort` loop (before the
division by `N`). -/
def CRabarRaw (ageComp : ℕ → ℝ) (kage Aplus : ℕ) (minObs : ℤ) : ℝ :=
  (CRmortLoop ageComp minObs kage (Aplus + 1 - kage) (kage - 1)
    (fun _ => 0, 0)).2

/-- The total count `N` of `CRmort` expressed directly as the sum of the
recorded prefix of the age composition. -/
def CRN (ageComp : ℕ → ℝ) (kage Aplus : ℕ) (minObs : ℤ) : ℝ :=
  ∑ j ∈ Finset.range (CRlen ageComp kage Aplus minObs),
    ageComp (kage - 1 + j)

/-- The recorded-age average `abar` of `CRmort` (after the division by
`N`) expressed directly in terms of the recorded prefix. -/
def CRabar (ageComp : ℕ → ℝ) (kage Aplus : ℕ) (minObs : ℤ) : ℝ :=
  (∑ j ∈ Finset.range (CRlen ageComp kage Aplus minObs),
      (j : ℝ) * ageComp (kage - 1 + j)) /
    CRN ageComp kage Aplus minObs

theorem CRrecLen_le (ageComp : ℕ → ℝ) (minObs : ℤ) :
    ∀ fuel a, CRrecLen ageComp minObs fuel a ≤ fuel := by
  intro fuel
  induction fuel with
  | zero => intro a; exact Nat.le_refl 0
  | succ fuel ih =>
    intro a
    by_cases h : (minObs : ℝ) ≤ ageComp a
    · rw [CRrecLen, if_pos h]
      exact Nat.succ_le_succ (ih (a + 1))
    · rw [CRrecLen, if_neg h]
      exact Nat.zero_le _

theorem CRrecLen_accepts (ageComp : ℕ → ℝ) (minObs : ℤ) :
    ∀ fuel a j, j < CRrecLen ageComp minObs fuel a →
      (minObs : ℝ) ≤ ageComp (a + j) := by
  intro fuel
  induction fuel with
  | zero => intro a j hj; exact absurd hj (Nat.not_lt_zero j)
  | succ fuel ih =>
    intro a j hj
    by_cases h : (minObs : ℝ) ≤ ageComp a
    · rw [CRrecLen, if_pos h] at hj
      match j with
      | 0 => simpa using h
      | k + 1 =>
        have hk : k < CRrecLen ageComp minObs fuel (a + 1) :=
          Nat.lt_of_succ_lt_succ hj
        have := ih (a + 1) k hk
        have harg : a + 1 + k = a + (k + 1) := by omega
        rwa [harg] at this
    · rw [CRrecLen, if_neg h] at hj
      exact absurd hj (Nat.not_lt_zero j)

theorem CRrecLen_stops (ageComp : ℕ → ℝ) (minObs : ℤ) :
    ∀ fuel a, CRrecLen ageComp minObs fuel a < fuel →
      ageComp (a + CRrecLen ageComp minObs fuel a) < (minObs : ℝ) := by
  intro fuel
  induction fuel with
  | zero => intro a h; exact absurd h (Nat.not_lt_zero _)
  | succ fuel ih =>
    intro a h
    by_cases hacc : (minObs : ℝ) ≤ ageComp a
    · rw [CRrecLen, if_pos hacc] at h ⊢
      have hlt : CRrecLen ageComp minObs fuel (a + 1) < fuel :=
        Nat.lt_of_succ_lt_succ h
      have := ih (a + 1) hlt
      have harg : a + 1 + CRrecLen ageComp minObs fuel (a + 1) =
          a + (CRrecLen ageComp minObs fuel (a + 1) + 1) := by omega
      rwa [harg] at this
    · rw [CRrecLen, if_neg hacc]
      simpa using lt_of_not_le hacc

theorem CRmortLoop_snd (ageComp : ℕ → ℝ) (minObs : ℤ) (kage : ℕ) :
    ∀ fuel a obs abar, kage ≤ a + 1 →
      (CRmortLoop ageComp minObs kage fuel a (obs, abar)).2 =
        abar + ∑ j ∈ Finset.range (CRrecLen ageComp minObs fuel a),
          ((a + 1 - kage + j : ℕ) : ℝ) * ageComp (a + j) := by
  intro fuel
  induction fuel with
  | zero =>
    intro a obs abar _
    simp [CRmortLoop, CRrecLen]
  | succ fuel ih =>
    intro a obs abar ha
    by_cases hacc : (minObs : ℝ) ≤ ageComp a
    · rw [CRmortLoop, if_pos hacc, CRrecLen, if_pos hacc,
        ih (a + 1) _ _ (by omega), Finset.sum_range_succ']
      have hcongr : ∀ j ∈ Finset.range (CRrecLen ageComp minObs fuel (a + 1)),
          ((a + 1 - kage + (j + 1) : ℕ) : ℝ) * ageComp (a + (j + 1)) =
            ((a + 1 + 1 - kage + j : ℕ) : ℝ) * ageComp (a + 1 + j) := by
        intro j _
        have h1 : a + 1 - kage + (j + 1) = a + 1 + 1 - kage + j := by omega
        have h2 : a + (j + 1) = a + 1 + j := by omega
        rw [h1, h2]
      rw [Finset.sum_congr rfl hcongr]
      have h0 : a + 1 - kage + 0 = a + 1 - kage := by omega
      have h0a : a + 0 = a := by omega
      rw [h0, h0a]
      ring
    · rw [CRmortLoop, if_neg hacc, CRrecLen, if_neg hacc]
      simp

theorem CRmortLoop_fst (ageComp : ℕ → ℝ) (minObs : ℤ) (kage : ℕ)
    (hk : 1 ≤ kage) :
    ∀ fuel a obs abar j, kage ≤ a + 1 →
      (CRmortLoop ageComp minObs kage fuel a (obs, abar)).1 j =
        if a + 1 - kage ≤ j ∧
            j < a + 1 - kage + CRrecLen ageComp minObs fuel a then
          ageComp (kage - 1 + j)
        else obs j := by
  intro fuel
  induction fuel with
  | zero =>
    intro a obs abar j _
    rw [CRrecLen, if_neg (by omega)]
    simp [CRmortLoop]
  | succ fuel ih =>
    intro a obs abar j ha
    by_cases hacc : (minObs : ℝ) ≤ ageComp a
    · rw [CRmortLoop, if_pos hacc, CRrecLen, if_pos hacc,
        ih (a + 1) _ _ j (by omega)]
      by_cases hj1 : a + 1 + 1 - kage ≤ j ∧
          j < a + 1 + 1 - kage + CRrecLen ageComp minObs fuel (a + 1)
      · rw [if_pos hj1, if_pos (by omega)]
      · rw [if_neg hj1]
        by_cases hj2 : j = a + 1 - kage
        · rw [if_pos (by omega)]
          have hupd : Function.update obs (a + 1 - kage) (ageComp a) j =
              ageComp a := by
            rw [hj2, Function.update_same]
          rw [hupd]
          have harg : kage - 1 + j = a := by omega
          rw [harg]
        · have hupd : Function.update obs (a + 1 - kage) (ageComp a) j =
              obs j := Function.update_noteq hj2 _ _
          rw [hupd, if_neg (by omega)]
    · rw [CRmortLoop, if_neg hacc, CRrecLen, if_neg hacc,
        if_neg (by omega)]

theorem CRageObs_eq (ageComp : ℕ → ℝ) (kage Aplus : ℕ) (minObs : ℤ)
    (h1 : 1 ≤ kage) (j : ℕ) :
    CRageObs ageComp kage Aplus minObs j =
      if j < CRlen ageComp kage Aplus minObs then ageComp (kage - 1 + j)
      else 0 := by
  have ha : kage ≤ kage - 1 + 1 := by omega
  rw [CRageObs, CRlen,
    CRmortLoop_fst ageComp minObs kage h1 (Aplus + 1 - kage) (kage - 1)
      (fun _ => 0) 0 j ha]
  by_cases hj : j < CRrecLen ageComp minObs (Aplus + 1 - kage) (kage - 1)
  · rw [if_pos (by omega), if_pos hj]
  · rw [if_neg (by omega), if_neg hj]

theorem CRabarRaw_eq (ageComp : ℕ → ℝ) (kage Aplus : ℕ) (minObs : ℤ)
    (h1 : 1 ≤ kage) :
    CRabarRaw ageComp kage Aplus minObs =
      ∑ j ∈ Finset.range (CRlen ageComp kage Aplus minObs),
        (j : ℝ) * ageComp (kage - 1 + j) := by
  have ha : kage ≤ kage - 1 + 1 := by omega
  rw [CRabarRaw, CRlen,
    CRmortLoop_snd ageComp minObs kage (Aplus + 1 - kage) (kage - 1)
      (fun _ => 0) 0 ha]
  have hcongr : ∀ j ∈ Finset.range
      (CRrecLen ageComp minObs (Aplus + 1 - kage) (kage - 1)),
      ((kage - 1 + 1 - kage + j : ℕ) : ℝ) * ageComp (kage - 1 + j) =
        (j : ℝ) * ageComp (kage - 1 + j) := by
    intro j _
    have h : kage - 1 + 1 - kage + j = j := by omega
    rw [h]
  rw [Finset.sum_congr rfl hcongr, zero_add]

theorem CRsumObs_eq (ageComp : ℕ → ℝ) (kage Aplus : ℕ) (minObs : ℤ)
    (h1 : 1 ≤ kage) :
    (∑ j ∈ Finset.range (Aplus + 1 - kage),
        CRageObs ageComp kage Aplus minObs j) =
      CRN ageComp kage Aplus minObs := by
  have hLle : CRlen ageComp kage Aplus minObs ≤ Aplus + 1 - kage := by
    rw [CRlen]
    exact CRrecLen_le ageComp minObs (Aplus + 1 - kage) (kage - 1)
  rw [Finset.sum_congr rfl
    (fun j _ => CRageObs_eq ageComp kage Aplus minObs h1 j), CRN]
  rw [← Finset.sum_subset (Finset.range_subset.mpr hLle)
    (fun x hx hnx => if_neg (fun hxl => hnx (Finset.mem_range.mpr hxl)))]
  exact Finset.sum_congr rfl
    (fun j hj => if_pos (Finset.mem_range.mp hj))

/-- C4: the loop of `CRmort` records exactly the maximal prefix of the age
range: writing `L` for `CRlen` (the length of the maximal above-threshold
prefix starting at age `kage - 1`), every relative index `j < L` holds
`ageComp (kage - 1 + j)` (an above-threshold entry) in `ageObs`, `abar`
accumulates `j * ageComp (kage - 1 + j)` over exactly these indices, every
index at or past `L` is left at zero (no later age is recorded even if it
is above the threshold), and if the loop stopped before exhausting the
range then the first unrecorded age is strictly below `minObs`. -/
theorem CRmort_records_truncated_prefix (ageComp : ℕ → ℝ) (kage Aplus : ℕ)
    (minObs : ℤ) (h1 : 1 ≤ kage) (_h2 : kage ≤ Aplus) :
    (∀ j, j < CRlen ageComp kage Aplus minObs →
        CRageObs ageComp kage Aplus minObs j = ageComp (kage - 1 + j) ∧
          (minObs : ℝ) ≤ ageComp (kage - 1 + j)) ∧
      (∀ j, CRlen ageComp kage Aplus minObs ≤ j →
        CRageObs ageComp kage Aplus minObs j = 0) ∧
      CRabarRaw ageComp kage Aplus minObs =
        (∑ j ∈ Finset.range (CRlen ageComp kage Aplus minObs),
          (j : ℝ) * ageComp (kage - 1 + j)) ∧
      (CRlen ageComp kage Aplus minObs < Aplus + 1 - kage →
        ageComp (kage - 1 + CRlen ageComp kage Aplus minObs) < (minObs : ℝ)) := by
  refine ⟨fun j hj => ⟨?_, ?_⟩, fun j hj => ?_, ?_, fun hlt => ?_⟩
  · rw [CRageObs_eq ageComp kage Aplus minObs h1 j, if_pos hj]
  · rw [CRlen] at hj
    exact CRrecLen_accepts ageComp minObs (Aplus + 1 - kage) (kage - 1) j hj
  · rw [CRageObs_eq ageComp kage Aplus minObs h1 j, if_neg (by omega)]
  · exact CRabarRaw_eq ageComp kage Aplus minObs h1
  · rw [CRlen] at hlt ⊢
    exact CRrecLen_stops ageComp minObs (Aplus + 1 - kage) (kage - 1) hlt

/-- C5: the value `CRmort` writes into `Ztmp` is `-1` exactly on the
branch where the computed recorded-age average `abar` (after the division
by `N`) is zero, and otherwise is `log((1 + abar - 1/N) / abar)`; the
degenerate case is signalled only through this sentinel value — the
embedding is a total function on its inputs, with no exceptional exit. -/
theorem CRmort_sentinel_iff_abar_zero (ageComp : ℕ → ℝ) (kage Aplus : ℕ)
    (minObs : ℤ) (h1 : 1 ≤ kage) (_h2 : kage ≤ Aplus) :
    CRmort ageComp kage Aplus minObs =
      if CRabar ageComp kage Aplus minObs = 0 then -1
      else
        Real.log ((1 + CRabar ageComp kage Aplus minObs -
              1 / CRN ageComp kage Aplus minObs) /
            CRabar ageComp kage Aplus minObs) := by
  have hobs : (CRmortLoop ageComp minObs kage (Aplus + 1 - kage) (kage - 1)
      (fun _ => 0, 0)).1 = CRageObs ageComp kage Aplus minObs := rfl
  have habar : (CRmortLoop ageComp minObs kage (Aplus + 1 - kage) (kage - 1)
      (fun _ => 0, 0)).2 = CRabarRaw ageComp kage Aplus minObs := rfl
  simp only [CRmort, hobs, habar,
    CRsumObs_eq ageComp kage Aplus minObs h1,
    CRabarRaw_eq ageComp kage Aplus minObs h1, CRabar]

/-- Witness for C4 at the constant composition `ageComp = 1`, `kage = 1`,
`Aplus = 2`, `minObs = 1`. -/
theorem CRmort_records_truncated_prefix_wit :
    (1 ≤ 1 ∧ 1 ≤ 2) ∧
      ((∀ j, j < CRlen (fun _ => (1 : ℝ)) 1 2 1 →
          CRageObs (fun _ => (1 : ℝ)) 1 2 1 j = 1 ∧ ((1 : ℤ) : ℝ) ≤ 1) ∧
        (∀ j, CRlen (fun _ => (1 : ℝ)) 1 2 1 ≤ j →
          CRageObs (fun _ => (1 : ℝ)) 1 2 1 j = 0) ∧
        CRabarRaw (fun _ => (1 : ℝ)) 1 2 1 =
          (∑ j ∈ Finset.range (CRlen (fun _ => (1 : ℝ)) 1 2 1),
            (j : ℝ) * 1) ∧
        (CRlen (fun _ => (1 : ℝ)) 1 2 1 < 2 + 1 - 1 →
          (1 : ℝ) < ((1 : ℤ) : ℝ))) :=
  ⟨⟨le_refl 1, by norm_num⟩,
    CRmort_records_truncated_prefix (fun _ => (1 : ℝ)) 1 2 1 (le_refl 1)
      (by norm_num)⟩

/-- The age-composition sample of the spec's testable properties:
`ageComp = [5, 10, 3, 0, 0]` (entries beyond the vector read as `0`). -/
def sampleAgeComp : ℕ → ℝ := fun a => ([5, 10, 3, 0, 0] : List ℝ).getD a 0

/-- Witness for C5 at `ageComp = [5, 10, 3, 0, 0]`, `kage = 1`,
`Aplus = 5`, `minObs = 1`. -/
theorem CRmort_sentinel_iff_abar_zero_wit :
    (1 ≤ 1 ∧ 1 ≤ 5) ∧
      CRmort sampleAgeComp 1 5 1 =
        (if CRabar sampleAgeComp 1 5 1 = 0 then -1
        else
          Real.log ((1 + CRabar sampleAgeComp 1 5 1 -
                1 / CRN sampleAgeComp 1 5 1) /
              CRabar sampleAgeComp 1 5 1)) :=
  ⟨⟨le_refl 1, by norm_num⟩,
    CRmort_sentinel_iff_abar_zero sampleAgeComp 1 5 1 (le_refl 1)
      (by norm_num)⟩

end

end StockAssessment
